import Mathlib

/-!
# Verification of the ISAR target-classification pipeline

Shallow embedding of the core logic of the repository
(`python/ml_models.py`, `python/cnn_model.py`, `python/evaluation.py`,
`python/data_loader.py`, `python/config.py`) and proofs about it.

Conventions:
* integer class ids are modelled as `ℤ` (so that the distinguished
  sentinel `-1` used by `predict_kmeans` lives in the same type);
* cluster ids are `ℕ`;
* real-valued quantities (losses, metric scores, pixel fractions) are
  modelled as `ℚ`;
* numpy arrays become Lean lists, Python dicts become functions into
  `Option`.
-/

namespace ISAR

/-! ## Configuration constants (`config.py`) -/

/-- `IMG_SIZE = (64, 64)` from `config.py`. -/
def IMG_SIZE : ℕ × ℕ := (64, 64)

/-- `CNN_EPOCHS = 50` from `config.py`. -/
def CNN_EPOCHS : ℕ := 50

/-- `CNN_EARLY_STOPPING_PATIENCE = 5` from `config.py`. -/
def CNN_EARLY_STOPPING_PATIENCE : ℕ := 5

/-- `TEST_SIZE = 0.2` from `config.py` (one fifth of the data). -/
def TEST_SIZE : ℚ := 1 / 5

/-! ## K-Means label adaptation (`ml_models.py`, `train_kmeans` / `predict_kmeans`)

`train_kmeans` fits K-Means (opaque here: the resulting assignment of
training rows to clusters is taken as an arbitrary list `assign`,
parallel to the training labels `y`), then builds
`cluster_to_label[cid] = Counter(y[mask]).most_common(1)[0][0]` for each
cluster id occurring in `assign`.

Python's `Counter` iterates its keys in order of first occurrence, and
`most_common` sorts stably by descending count, so `most_common(1)[0][0]`
is the element of maximal count whose first occurrence in the scanned
sequence is earliest.  `mostCommon` below computes exactly that value by
a left fold that replaces the current best only on a strictly larger
count. -/

/-- The value `Counter(l).most_common(1)[0][0]`: the element of `l` with
the greatest multiplicity, ties resolved in favour of the element whose
first occurrence in `l` is earliest.  On `[]` (never the case in the
program) it returns the junk value `0`. -/
def mostCommon (l : List ℤ) : ℤ :=
  l.foldl (fun best a => if l.count a > l.count best then a else best) (l.headD 0)

/-- The training labels of the points assigned to cluster `cid`:
`y_train[cluster_labels == cid]` in `train_kmeans`. -/
def clusterMembers (assign : List ℕ) (y : List ℤ) (cid : ℕ) : List ℤ :=
  (assign.zip y).filterMap (fun p => if p.1 = cid then some p.2 else none)

/-- The `cluster_to_label` dict built by `train_kmeans`: an entry for
every cluster id occurring in the training assignment (`np.unique`),
holding the most common training label among that cluster's members. -/
def cluster_to_label (assign : List ℕ) (y : List ℤ) (cid : ℕ) : Option ℤ :=
  if cid ∈ assign then some (mostCommon (clusterMembers assign y cid)) else none

/-- `predict_kmeans`: map the cluster id of every query row through
`cluster_to_label`, defaulting to `-1` (`dict.get(c, -1)`) for a cluster
id without an entry.  The cluster ids of the query rows are again an
arbitrary list `clusters` (the opaque `model.predict(X)`). -/
def predict_kmeans (assign : List ℕ) (y : List ℤ) (clusters : List ℕ) : List ℤ :=
  clusters.map (fun c => (cluster_to_label assign y c).getD (-1))

/-- The fold underlying `mostCommon`, over an arbitrary count function. -/
def bestBy (cnt : ℤ → ℕ) (b : ℤ) (s : List ℤ) : ℤ :=
  s.foldl (fun best a => if cnt a > cnt best then a else best) b

/-! ## Ensemble training (`ml_models.py`, `train_all_models`)

`train_all_models` calls `train_svm`, `train_decision_tree`,
`train_random_forest` and `train_kmeans` in that order, with no
`try`/`except` around any call, and inserts each result into a dict.
Each adapter's outcome is abstracted as an `Except` value (the opaque
fit on the fixed training data, which either returns a model or raises);
Python exception propagation is the `Except` monad's bind. -/

/-- `train_all_models`: sequentially train the four adapters, building
the ordered `{name: model}` dict; a raised exception propagates. -/
def train_all_models {ε α : Type} (svm dt rf km : Except ε α) :
    Except ε (List (String × α)) := do
  let s ← svm
  let d ← dt
  let r ← rf
  let k ← km
  pure [("SVM", s), ("Decision Tree", d), ("Random Forest", r), ("K-Means", k)]

/-! ## Label extraction (`data_loader.py`, `load_images_from_folder`)

For each file name, `label = fname.split("_")[0]` keeps everything
before the first underscore, and
`label = "".join(c for c in label if not c.isdigit())` then removes
every digit character (not only trailing ones, despite the adjacent
comment).  File names are modelled as lists of characters. -/

/-- The class-label string derived from a file name by
`load_images_from_folder`. -/
def extractLabel (fname : List Char) : List Char :=
  (fname.takeWhile (fun c => c ≠ '_')).filter (fun c => ! c.isDigit)

/-! ## CNN input reshaping (`cnn_model.py`, `_reshape_for_cnn`)

`_reshape_for_cnn` runs `X.astype("float32").reshape(-1, 64, 64, 1)`.
numpy's `reshape` with one inferred dimension succeeds exactly when the
total element count is divisible by the product of the fixed dimensions
(`64*64*1`), whatever the input's own shape was, and raises otherwise
(the spec's `ShapeError`).  Both `train_cnn` and `predict_cnn` route
every input array through this function.  The model tracks the shape
`(rows, cols)` of the 2-D input; element values are irrelevant to the
failure behaviour. -/

/-- `_reshape_for_cnn` on an input of shape `(rows, cols)`: the resulting
4-D shape, or a `ShapeError`. -/
def reshape_for_cnn (rows cols : ℕ) : Except String (ℕ × ℕ × ℕ × ℕ) :=
  if rows * cols % (IMG_SIZE.1 * IMG_SIZE.2 * 1) = 0 then
    Except.ok (rows * cols / (IMG_SIZE.1 * IMG_SIZE.2 * 1), IMG_SIZE.1, IMG_SIZE.2, 1)
  else Except.error "ShapeError"

/-! ## Label codec (`data_loader.py`, `prepare_data`) -/

/-- Modelled from the spec: the `LabelCodec` is sklearn's `LabelEncoder`
(`le.fit_transform` / `le.inverse_transform` in `prepare_data`), whose
code is not part of this repository.  Per the spec, `fit` assigns dense
ids `0..K-1` by the sorted order of the distinct names; `fitClasses` is
that ordered vocabulary (`le.classes_`). -/
def fitClasses (names : List String) : List String :=
  List.insertionSort (fun a b => a ≤ b) names.dedup

/-- Modelled from the spec: `encode(name)` is the position of the name
in the sorted vocabulary. -/
def encode (names : List String) (n : String) : ℕ :=
  (fitClasses names).indexOf n

/-- Modelled from the spec: `decode(id)` reads the vocabulary back at
the given id; an out-of-range id has no answer. -/
def decode (names : List String) (i : ℕ) : Option String :=
  (fitClasses names)[i]?

/-! ## Evaluation metrics (`evaluation.py`, `compute_metrics`)

`compute_metrics` delegates to sklearn's `accuracy_score` and the
weighted `precision_score` / `recall_score` / `f1_score` with
`zero_division=0`; sklearn itself is not part of this repository, so the
scores are modelled from the spec: accuracy is the fraction of exact
matches; precision, recall and F1 are computed per class over the labels
present in either argument, then averaged weighted by each class's
support (its number of true instances); with `zero_division=0`, a class
with an empty denominator contributes `0`, never NaN.  Scores are
rationals. -/

/-- True positives of class `c`: positions where both labels equal `c`. -/
def tpCount (yt yp : List ℤ) (c : ℤ) : ℕ :=
  (yt.zip yp).countP (fun p => p.1 == c && p.2 == c)

/-- Modelled from the spec: per-class precision with `zero_division=0`. -/
def precClass (yt yp : List ℤ) (c : ℤ) : ℚ :=
  if yp.count c = 0 then 0 else (tpCount yt yp c : ℚ) / (yp.count c : ℚ)

/-- Modelled from the spec: per-class recall with `zero_division=0`. -/
def recClass (yt yp : List ℤ) (c : ℤ) : ℚ :=
  if yt.count c = 0 then 0 else (tpCount yt yp c : ℚ) / (yt.count c : ℚ)

/-- Modelled from the spec: per-class F1, `0` when precision and recall
are both zero. -/
def f1Class (yt yp : List ℤ) (c : ℤ) : ℚ :=
  if precClass yt yp c + recClass yt yp c = 0 then 0
  else 2 * precClass yt yp c * recClass yt yp c /
    (precClass yt yp c + recClass yt yp c)

/-- The classes a score is aggregated over: labels present in either
argument. -/
def classLabels (yt yp : List ℤ) : List ℤ := (yt ++ yp).dedup

/-- Modelled from the spec: support-weighted average of a per-class
score (total weight is the number of true instances). -/
def weightedAvg (yt yp : List ℤ) (g : ℤ → ℚ) : ℚ :=
  ((classLabels yt yp).map (fun c => (yt.count c : ℚ) * g c)).sum / (yt.length : ℚ)

/-- Modelled from the spec: fraction of exact matches. -/
def accuracy_score (yt yp : List ℤ) : ℚ :=
  ((yt.zip yp).countP (fun p => p.1 == p.2) : ℚ) / (yt.length : ℚ)

/-- Modelled from the spec: weighted precision. -/
def precision_score (yt yp : List ℤ) : ℚ := weightedAvg yt yp (precClass yt yp)

/-- Modelled from the spec: weighted recall. -/
def recall_score (yt yp : List ℤ) : ℚ := weightedAvg yt yp (recClass yt yp)

/-- Modelled from the spec: weighted F1. -/
def f1_score (yt yp : List ℤ) : ℚ := weightedAvg yt yp (f1Class yt yp)

/-- The record returned by `compute_metrics`. -/
structure Metrics where
  accuracy : ℚ
  precision : ℚ
  recall' : ℚ
  f1 : ℚ
deriving DecidableEq

/-- `compute_metrics` from `evaluation.py`. -/
def compute_metrics (yt yp : List ℤ) : Metrics :=
  ⟨accuracy_score yt yp, precision_score yt yp, recall_score yt yp, f1_score yt yp⟩

/-! ## Convolutional trainer epoch loop (`cnn_model.py`, `train_cnn`)

`train_cnn` calls Keras `model.fit` with `epochs = CNN_EPOCHS` and an
`EarlyStopping(patience=CNN_EARLY_STOPPING_PATIENCE,
restore_best_weights=True)` callback; the loop itself lives in Keras,
not in this repository, so it is modelled from the spec: each epoch
appends its validation loss to the history; the best (smallest)
validation loss seen so far is tracked, an epoch with a strictly smaller
loss resets the patience counter and checkpoints its weights, and after
`patience` consecutive epochs without improvement training stops and the
checkpointed weights are restored.  The validation loss that the opaque
epoch-`e` weight update produces is an arbitrary function `vloss e`;
losses are rationals.  The best epoch index stands for the restored
weights (weights are a function of the epoch that produced them). -/

/-- The minimum of a list of losses (`0` on `[]`, never used there). -/
def listMin : List ℚ → ℚ
  | [] => 0
  | a :: t => t.foldl min a

/-- Outcome of a training run: the per-epoch validation-loss history,
the epoch index whose weights are restored, and whether early stopping
(rather than the epoch ceiling) ended the run. -/
structure FitResult where
  hist : List ℚ
  bestIdx : ℕ
  early : Bool

/-- Modelled from the spec: the epoch loop after the first epoch.
State: remaining epochs `r`, history so far, best loss so far, its epoch
index, and the count of consecutive epochs without improvement. -/
def esAux (vloss : ℕ → ℚ) (patience : ℕ) :
    ℕ → List ℚ → ℚ → ℕ → ℕ → FitResult
  | 0, hist, _, bi, _ => ⟨hist, bi, false⟩
  | r + 1, hist, best, bi, wait =>
    if vloss hist.length < best then
      esAux vloss patience r (hist ++ [vloss hist.length]) (vloss hist.length) hist.length 0
    else if patience ≤ wait + 1 then ⟨hist ++ [vloss hist.length], bi, true⟩
    else esAux vloss patience r (hist ++ [vloss hist.length]) best bi (wait + 1)

/-- Modelled from the spec: the whole `model.fit` loop of `train_cnn`.
The first epoch always improves on the initial infinite best, so the
loop proper starts with history `[vloss 0]`, best epoch `0`, patience
counter `0` and `CNN_EPOCHS - 1` epochs left. -/
def train_cnn (vloss : ℕ → ℚ) : FitResult :=
  esAux vloss CNN_EARLY_STOPPING_PATIENCE (CNN_EPOCHS - 1) [vloss 0] (vloss 0) 0 0

/-- The contract of a finished run with epoch budget `cap`: the history
fits the budget, the budget is used in full unless early stopping fired,
the restored epoch attains the minimal recorded validation loss, and an
early stop is preceded by `patience` consecutive epochs that failed to
improve on the running best. -/
def RunOK (patience cap : ℕ) (R : FitResult) : Prop :=
  R.hist.length ≤ cap ∧
  R.hist ≠ [] ∧
  (∃ hb : R.bestIdx < R.hist.length,
    R.hist.get ⟨R.bestIdx, hb⟩ = listMin R.hist) ∧
  (R.early = false → R.hist.length = cap) ∧
  (R.early = true → patience ≤ R.hist.length ∧
    ∀ j, ∀ hj : j < R.hist.length, R.hist.length - patience ≤ j →
      listMin (R.hist.take j) ≤ R.hist.get ⟨j, hj⟩)

/-! ## Stratified train/test split (`data_loader.py`, `prepare_data`)

`prepare_data` calls the external splitter with
`test_size=0.2, random_state=1, stratify=y`; that collaborator is not
part of this repository, so the split is modelled from the spec and the
splitter's documented stratified behaviour over positions
`0..len(y)-1`: the test partition receives `⌈len·TEST_SIZE⌉` samples and
the train partition the rest; the train slots are apportioned across
classes proportionally — each class gets the floor of its proportional
share, and the slots left over go one each to the classes with the
largest fractional remainders (ties resolved by class order here,
standing for the splitter's seeded random choice; every proven statement
holds for any tie resolution).  Each class sends its earliest members to
the test partition (again standing for the seeded choice).  A dataset is
represented by its label list; partitions are index lists into it. -/

/-- The label at position `i` (junk `0` out of range, never used there). -/
def labelAt (labels : List ℕ) (i : ℕ) : ℕ := labels.getD i 0

/-- Modelled from the spec: the test-partition size `⌈len · TEST_SIZE⌉`,
i.e. `⌈len / 5⌉`. -/
def nTest (labels : List ℕ) : ℕ := (labels.length + 4) / 5

/-- Modelled from the spec: the train-partition size, the complement of
the test size. -/
def nTrain (labels : List ℕ) : ℕ := labels.length - nTest labels

/-- The distinct classes of the dataset. -/
def classesOf (labels : List ℕ) : List ℕ := labels.dedup

/-- The floor of class `c`'s proportional share of the train partition:
`⌊count(c) · nTrain / len⌋`. -/
def baseAlloc (labels : List ℕ) (c : ℕ) : ℕ :=
  labels.count c * nTrain labels / labels.length

/-- The fractional remainder of class `c`'s proportional train share,
scaled by the dataset size: `count(c) · nTrain mod len`. -/
def remAlloc (labels : List ℕ) (c : ℕ) : ℕ :=
  labels.count c * nTrain labels % labels.length

/-- The train slots left over once every class has its floor share. -/
def extraCount (labels : List ℕ) : ℕ :=
  nTrain labels - ((classesOf labels).map (baseAlloc labels)).sum

/-- The classes ordered by descending remainder (stable sort, so ties
fall back to class order, standing for the seeded random choice). -/
def rankedClasses (labels : List ℕ) : List ℕ :=
  List.insertionSort (fun a b => remAlloc labels b ≤ remAlloc labels a) (classesOf labels)

/-- The classes that receive one leftover train slot each: those with
the largest remainders. -/
def extraClasses (labels : List ℕ) : List ℕ :=
  (rankedClasses labels).take (extraCount labels)

/-- Modelled from the spec: class `c`'s train allocation — its floor
share, plus one when it is among the largest remainders. -/
def trainAlloc (labels : List ℕ) (c : ℕ) : ℕ :=
  baseAlloc labels c + (if c ∈ extraClasses labels then 1 else 0)

/-- Modelled from the spec: the number of test samples class `c`
contributes — its members not allocated to train. -/
def testQuota (labels : List ℕ) (c : ℕ) : ℕ :=
  labels.count c - trainAlloc labels c

/-- Modelled from the spec: position `i` goes to the test partition iff
its rank within its own class is below the class's test quota. -/
def goesToTest (labels : List ℕ) (i : ℕ) : Bool :=
  (labels.take i).count (labelAt labels i) < testQuota labels (labelAt labels i)

/-- The test partition of the stratified split, as an index list. -/
def testIdx (labels : List ℕ) : List ℕ :=
  (List.range labels.length).filter (fun i => goesToTest labels i)

/-- The train partition of the stratified split, as an index list. -/
def trainIdx (labels : List ℕ) : List ℕ :=
  (List.range labels.length).filter (fun i => ! goesToTest labels i)

/-- How many members of class `c` an index list contains. -/
def classCountIn (labels : List ℕ) (idx : List ℕ) (c : ℕ) : ℕ :=
  (idx.filter (fun i => labelAt labels i == c)).length

/-- The fraction of class `c` within a partition. -/
def classFrac (labels : List ℕ) (idx : List ℕ) (c : ℕ) : ℚ :=
  (classCountIn labels idx c : ℚ) / (idx.length : ℚ)

/-- The fraction of class `c` in the full dataset. -/
def fullFrac (labels : List ℕ) (c : ℕ) : ℚ :=
  (labels.count c : ℚ) / (labels.length : ℚ)

section MostCommonLemmas

theorem bestBy_nil (cnt : ℤ → ℕ) (b : ℤ) : bestBy cnt b [] = b := rfl

theorem bestBy_cons (cnt : ℤ → ℕ) (b a : ℤ) (s : List ℤ) :
    bestBy cnt b (a :: s) = bestBy cnt (if cnt a > cnt b then a else b) s := rfl

theorem mostCommon_eq_bestBy (l : List ℤ) :
    mostCommon l = bestBy (l.count ·) (l.headD 0) l := rfl

/-- The fold result is the seed or an element of the list. -/
theorem bestBy_mem (cnt : ℤ → ℕ) (b : ℤ) (s : List ℤ) :
    bestBy cnt b s = b ∨ bestBy cnt b s ∈ s := by
  induction s generalizing b with
  | nil => exact Or.inl rfl
  | cons a s ih =>
    rw [bestBy_cons]
    rcases ih (if cnt a > cnt b then a else b) with h | h
    · by_cases hab : cnt a > cnt b
      · right; rw [h, if_pos hab]; exact List.mem_cons_self a s
      · left; rw [h, if_neg hab]
    · right; exact List.mem_cons_of_mem a h

/-- The fold never decreases the count of the current best. -/
theorem cnt_le_bestBy (cnt : ℤ → ℕ) (b : ℤ) (s : List ℤ) :
    cnt b ≤ cnt (bestBy cnt b s) := by
  induction s generalizing b with
  | nil => exact le_refl _
  | cons a s ih =>
    rw [bestBy_cons]
    by_cases hab : cnt a > cnt b
    · rw [if_pos hab]
      exact le_trans (le_of_lt hab) (ih a)
    · rw [if_neg hab]
      exact ih b

/-- Every scanned element's count is dominated by the result's count. -/
theorem cnt_mem_le_bestBy (cnt : ℤ → ℕ) (b : ℤ) (s : List ℤ) :
    ∀ a ∈ s, cnt a ≤ cnt (bestBy cnt b s) := by
  induction s generalizing b with
  | nil => intro a ha; exact absurd ha (List.not_mem_nil a)
  | cons x s ih =>
    intro a ha
    rw [bestBy_cons]
    rcases List.mem_cons.mp ha with rfl | ha
    · by_cases hab : cnt a > cnt b
      · rw [if_pos hab]; exact cnt_le_bestBy cnt a s
      · rw [if_neg hab]
        exact le_trans (not_lt.mp hab) (cnt_le_bestBy cnt b s)
    · exact ih _ a ha

/-- If nothing in the remaining list strictly beats the seed, the seed wins. -/
theorem bestBy_of_all_le (cnt : ℤ → ℕ) (b : ℤ) (s : List ℤ)
    (h : ∀ a ∈ s, cnt a ≤ cnt b) : bestBy cnt b s = b := by
  induction s with
  | nil => rfl
  | cons a s ih =>
    rw [bestBy_cons, if_neg (not_lt.mpr (h a (List.mem_cons_self a s)))]
    exact ih (fun x hx => h x (List.mem_cons_of_mem a hx))

/-- `mostCommon` of a nonempty list is an element of the list. -/
theorem mostCommon_mem (l : List ℤ) (hl : l ≠ []) : mostCommon l ∈ l := by
  rw [mostCommon_eq_bestBy]
  rcases bestBy_mem (l.count ·) (l.headD 0) l with h | h
  · rw [h]
    cases l with
    | nil => exact absurd rfl hl
    | cons a l => exact List.mem_cons_self a l
  · exact h

/-- `mostCommon` attains the maximal multiplicity. -/
theorem count_le_count_mostCommon (l : List ℤ) :
    ∀ a ∈ l, l.count a ≤ l.count (mostCommon l) := by
  intro a ha
  rw [mostCommon_eq_bestBy]
  exact cnt_mem_le_bestBy (l.count ·) (l.headD 0) l a ha

/-- If the fold's result does not improve on the seed's count, it is the seed. -/
theorem bestBy_eq_seed_of_cnt_eq (cnt : ℤ → ℕ) (b : ℤ) (s : List ℤ)
    (h : cnt (bestBy cnt b s) = cnt b) : bestBy cnt b s = b :=
  bestBy_of_all_le cnt b s (fun a ha => h ▸ cnt_mem_le_bestBy cnt b s a ha)

/-- When the fold strictly improves on the seed, its result is the first
element of the list attaining the result's count. -/
theorem bestBy_find_of_lt (cnt : ℤ → ℕ) (s : List ℤ) :
    ∀ b, cnt b < cnt (bestBy cnt b s) →
      s.find? (fun a => cnt a == cnt (bestBy cnt b s)) = some (bestBy cnt b s) := by
  induction s with
  | nil => intro b h; exact absurd h (lt_irrefl _)
  | cons a s ih =>
    intro b h
    rw [bestBy_cons] at h ⊢
    by_cases hab : cnt a > cnt b
    · rw [if_pos hab] at h ⊢
      by_cases hra : cnt (bestBy cnt a s) = cnt a
      · have hr : bestBy cnt a s = a := bestBy_eq_seed_of_cnt_eq cnt a s hra
        rw [hr, List.find?_cons_of_pos _ (by simp)]
      · have hlt : cnt a < cnt (bestBy cnt a s) :=
          lt_of_le_of_ne (cnt_le_bestBy cnt a s) (fun hh => hra hh.symm)
        rw [List.find?_cons_of_neg _ (by simp [Nat.ne_of_lt hlt])]
        exact ih a hlt
    · rw [if_neg hab] at h ⊢
      have halt : cnt a < cnt (bestBy cnt b s) :=
        lt_of_le_of_lt (not_lt.mp hab) h
      rw [List.find?_cons_of_neg _ (by simp [Nat.ne_of_lt halt])]
      exact ih b h

/-- `mostCommon l` is the first element of `l` whose multiplicity is
maximal: exactly the tie-break of `Counter.most_common`. -/
theorem mostCommon_first_max (l : List ℤ) (hl : l ≠ []) :
    l.find? (fun a => l.count a == l.count (mostCommon l)) = some (mostCommon l) := by
  obtain ⟨x, t, rfl⟩ := List.exists_cons_of_ne_nil hl
  rw [mostCommon_eq_bestBy]
  set cnt : ℤ → ℕ := ((x :: t).count ·) with hcnt
  show (x :: t).find? (fun a => cnt a == cnt (bestBy cnt x (x :: t))) =
    some (bestBy cnt x (x :: t))
  by_cases hr : cnt (bestBy cnt x (x :: t)) = cnt x
  · have hb : bestBy cnt x (x :: t) = x := bestBy_eq_seed_of_cnt_eq cnt x (x :: t) hr
    rw [hb, List.find?_cons_of_pos _ (by simp)]
  · have hlt : cnt x < cnt (bestBy cnt x (x :: t)) :=
      lt_of_le_of_ne (cnt_le_bestBy cnt x (x :: t)) (fun hh => hr hh.symm)
    exact bestBy_find_of_lt cnt (x :: t) x hlt

end MostCommonLemmas

section ClusterMapLemmas

/-- Cluster members are drawn from the training labels. -/
theorem clusterMembers_subset (assign : List ℕ) (y : List ℤ) (cid : ℕ) :
    ∀ v ∈ clusterMembers assign y cid, v ∈ y := by
  intro v hv
  obtain ⟨p, hp, hpe⟩ := List.mem_filterMap.mp hv
  have hp2 : p.2 = v := by
    by_cases h : p.1 = cid
    · rw [if_pos h] at hpe; exact Option.some_injective _ hpe
    · rw [if_neg h] at hpe; exact absurd hpe (Option.some_ne_none v).symm
  exact hp2 ▸ (List.of_mem_zip hp).2

/-- A cluster id occurring in a training assignment of the same length as
the label list has at least one member. -/
theorem clusterMembers_ne_nil (assign : List ℕ) (y : List ℤ) (cid : ℕ)
    (hlen : assign.length = y.length) (hc : cid ∈ assign) :
    clusterMembers assign y cid ≠ [] := by
  obtain ⟨i, hi, hget⟩ := List.mem_iff_getElem.mp hc
  have hiy : i < y.length := hlen ▸ hi
  have hiz : i < (assign.zip y).length := by
    rw [List.length_zip, hlen, min_self]; exact hiy
  have hmem : (assign[i], y[i]) ∈ assign.zip y := by
    have hz : (assign.zip y)[i] = (assign[i], y[i]) := List.getElem_zip
    exact hz ▸ List.getElem_mem hiz
  have : y[i] ∈ clusterMembers assign y cid := by
    refine List.mem_filterMap.mpr ⟨(assign[i], y[i]), hmem, ?_⟩
    rw [if_pos hget]
  exact List.ne_nil_of_mem this

end ClusterMapLemmas

/-- C1, counterexample: in cluster `0` with member labels `[2, 0]` the two
labels tie (one occurrence each), the lowest class id is `0`, yet
`train_kmeans` stores `2` — the first-occurring label — so the claimed
lowest-id tie-break is false. -/
theorem C1_tie_break_cex :
    cluster_to_label [0, 0] [2, 0] 0 = some 2 ∧
    (clusterMembers [0, 0] [2, 0] 0).count (0 : ℤ) =
      (clusterMembers [0, 0] [2, 0] 0).count 2 ∧
    (0 : ℤ) < 2 := by
  refine ⟨?_, by decide, by decide⟩
  decide

/-- C1 (amended): for every cluster id observed in training,
`train_kmeans` stores a label of maximal multiplicity among the cluster's
training labels, and when several labels tie for the maximum the winner
is the one occurring first in the cluster's label sequence (not the
lowest class id). -/
theorem C1_train_kmeans_majority (assign : List ℕ) (y : List ℤ) (cid : ℕ)
    (hlen : assign.length = y.length) (hc : cid ∈ assign) :
    ∃ v, cluster_to_label assign y cid = some v ∧
      v ∈ clusterMembers assign y cid ∧
      (∀ a ∈ clusterMembers assign y cid,
        (clusterMembers assign y cid).count a ≤ (clusterMembers assign y cid).count v) ∧
      (clusterMembers assign y cid).find?
        (fun a => (clusterMembers assign y cid).count a ==
          (clusterMembers assign y cid).count v) = some v := by
  have hne := clusterMembers_ne_nil assign y cid hlen hc
  refine ⟨mostCommon (clusterMembers assign y cid), ?_, ?_, ?_, ?_⟩
  · rw [cluster_to_label, if_pos hc]
  · exact mostCommon_mem _ hne
  · exact count_le_count_mostCommon _
  · exact mostCommon_first_max _ hne

/-- Witness for `C1_train_kmeans_majority` at a concrete input. -/
theorem C1_train_kmeans_majority_witness :
    ([0, 0] : List ℕ).length = ([2, 0] : List ℤ).length ∧ 0 ∈ ([0, 0] : List ℕ) ∧
    (∃ v, cluster_to_label [0, 0] [2, 0] 0 = some v ∧
      v ∈ clusterMembers [0, 0] [2, 0] 0 ∧
      (∀ a ∈ clusterMembers [0, 0] [2, 0] 0,
        (clusterMembers [0, 0] [2, 0] 0).count a ≤ (clusterMembers [0, 0] [2, 0] 0).count v) ∧
      (clusterMembers [0, 0] [2, 0] 0).find?
        (fun a => (clusterMembers [0, 0] [2, 0] 0).count a ==
          (clusterMembers [0, 0] [2, 0] 0).count v) = some v) :=
  ⟨rfl, by decide, C1_train_kmeans_majority [0, 0] [2, 0] 0 rfl (by decide)⟩

/-- C2: on training labels inside `[0, K)`, every prediction of the
cluster-derived classifier is either a class id in `[0, K)` or the
sentinel `-1`; the sentinel is not a class id (it is negative); and a
cluster id without a map entry yields the sentinel rather than an error
(`dict.get(c, -1)` is total). -/
theorem C2_predict_kmeans_range (assign clusters : List ℕ) (y : List ℤ) (K : ℤ)
    (hlen : assign.length = y.length)
    (hy : ∀ l ∈ y, 0 ≤ l ∧ l < K) :
    (∀ v ∈ predict_kmeans assign y clusters, (0 ≤ v ∧ v < K) ∨ v = -1) ∧
    ¬ (0 : ℤ) ≤ -1 ∧
    (∀ c, c ∉ assign → (cluster_to_label assign y c).getD (-1) = -1) := by
  refine ⟨?_, by decide, ?_⟩
  · intro v hv
    obtain ⟨c, _, hc⟩ := List.mem_map.mp hv
    by_cases hca : c ∈ assign
    · left
      rw [cluster_to_label, if_pos hca] at hc
      have hmem : mostCommon (clusterMembers assign y c) ∈ clusterMembers assign y c :=
        mostCommon_mem _ (clusterMembers_ne_nil assign y c hlen hca)
      have hyv : mostCommon (clusterMembers assign y c) ∈ y :=
        clusterMembers_subset assign y c _ hmem
      exact hc ▸ hy _ hyv
    · right
      rw [cluster_to_label, if_neg hca] at hc
      exact hc.symm
  · intro c hca
    rw [cluster_to_label, if_neg hca]
    rfl

/-- Witness for `C2_predict_kmeans_range` at a concrete input. -/
theorem C2_predict_kmeans_range_witness :
    ([0] : List ℕ).length = ([1] : List ℤ).length ∧
    (∀ l ∈ ([1] : List ℤ), 0 ≤ l ∧ l < 2) ∧
    ((∀ v ∈ predict_kmeans [0] [1] [0, 5], (0 ≤ v ∧ v < 2) ∨ v = -1) ∧
    ¬ (0 : ℤ) ≤ -1 ∧
    (∀ c, c ∉ ([0] : List ℕ) → (cluster_to_label [0] [1] c).getD (-1) = -1)) :=
  ⟨rfl, by decide, C2_predict_kmeans_range [0] [0, 5] [1] 2 rfl (by decide)⟩

/-- C9: every label stored in `cluster_to_label` occurs in the training
label array, hence every non-sentinel prediction of the cluster-derived
classifier is a label that was actually present in the training data. -/
theorem C9_predict_kmeans_label_seen (assign clusters : List ℕ) (y : List ℤ)
    (hlen : assign.length = y.length) :
    (∀ cid v, cluster_to_label assign y cid = some v → v ∈ y) ∧
    (∀ v ∈ predict_kmeans assign y clusters, v ≠ -1 → v ∈ y) := by
  have hmap : ∀ cid v, cluster_to_label assign y cid = some v → v ∈ y := by
    intro cid v hv
    by_cases hca : cid ∈ assign
    · rw [cluster_to_label, if_pos hca] at hv
      have hv' : mostCommon (clusterMembers assign y cid) = v :=
        Option.some_injective _ hv
      have hmem : mostCommon (clusterMembers assign y cid) ∈ clusterMembers assign y cid :=
        mostCommon_mem _ (clusterMembers_ne_nil assign y cid hlen hca)
      exact hv' ▸ clusterMembers_subset assign y cid _ hmem
    · rw [cluster_to_label, if_neg hca] at hv
      exact absurd hv (Option.some_ne_none v).symm
  refine ⟨hmap, ?_⟩
  intro v hv hvne
  obtain ⟨c, _, hc⟩ := List.mem_map.mp hv
  by_cases hca : c ∈ assign
  · rw [cluster_to_label, if_pos hca, Option.getD_some] at hc
    refine hmap c v ?_
    rw [cluster_to_label, if_pos hca, hc]
  · rw [cluster_to_label, if_neg hca] at hc
    exact absurd hc.symm hvne

/-- Witness for `C9_predict_kmeans_label_seen` at a concrete input. -/
theorem C9_predict_kmeans_label_seen_witness :
    ([0] : List ℕ).length = ([1] : List ℤ).length ∧
    ((∀ cid v, cluster_to_label [0] [1] cid = some v → v ∈ ([1] : List ℤ)) ∧
    (∀ v ∈ predict_kmeans [0] [1] [0, 7], v ≠ -1 → v ∈ ([1] : List ℤ))) :=
  ⟨rfl, C9_predict_kmeans_label_seen [0] [0, 7] [1] rfl⟩

/-- C3, counterexample: an adapter failure does not abort only its own
slot.  A failing first adapter (all later ones succeeding) yields a bare
error — no mapping at all, none of the three successful models appears —
and likewise a failure in the second slot discards the successful first
model and prevents the third and fourth from appearing. -/
theorem C3_partial_ensemble_cex :
    train_all_models (Except.error 0) (Except.ok 1) (Except.ok 2) (Except.ok 3) =
      (Except.error 0 : Except ℕ (List (String × ℕ))) ∧
    train_all_models (Except.ok 1) (Except.error 0) (Except.ok 2) (Except.ok 3) =
      (Except.error 0 : Except ℕ (List (String × ℕ))) := ⟨rfl, rfl⟩

/-- C3 (amended): a failure raised by any adapter's `train` propagates
out of `train_all_models`, so training stops at the first failing adapter
and no mapping — not even a partial one — is returned; only when all four
adapters succeed does the call return the full four-slot mapping in
training order. -/
theorem C3_train_all_models_abort {ε α : Type} (svm dt rf km : Except ε α) :
    (∀ e, svm = Except.error e →
      train_all_models svm dt rf km = Except.error e) ∧
    (∀ s e, svm = Except.ok s → dt = Except.error e →
      train_all_models svm dt rf km = Except.error e) ∧
    (∀ s d e, svm = Except.ok s → dt = Except.ok d → rf = Except.error e →
      train_all_models svm dt rf km = Except.error e) ∧
    (∀ s d r e, svm = Except.ok s → dt = Except.ok d → rf = Except.ok r →
      km = Except.error e →
      train_all_models svm dt rf km = Except.error e) ∧
    (∀ s d r k, svm = Except.ok s → dt = Except.ok d → rf = Except.ok r →
      km = Except.ok k →
      train_all_models svm dt rf km =
        Except.ok [("SVM", s), ("Decision Tree", d), ("Random Forest", r), ("K-Means", k)]) := by
  refine ⟨?_, ?_, ?_, ?_, ?_⟩
  · intro e he; subst he; rfl
  · intro s e hs he; subst hs; subst he; rfl
  · intro s d e hs hd he; subst hs; subst hd; subst he; rfl
  · intro s d r e hs hd hr he; subst hs; subst hd; subst hr; subst he; rfl
  · intro s d r k hs hd hr hk; subst hs; subst hd; subst hr; subst hk; rfl

/-- Witness for `C3_train_all_models_abort` at concrete inputs. -/
theorem C3_train_all_models_abort_witness :
    train_all_models (Except.ok 4) (Except.ok 5) (Except.error 7) (Except.ok 6) =
      (Except.error 7 : Except ℕ (List (String × ℕ))) ∧
    train_all_models (Except.ok 4) (Except.ok 5) (Except.ok 6) (Except.ok 8) =
      (Except.ok [("SVM", 4), ("Decision Tree", 5), ("Random Forest", 6), ("K-Means", 8)] :
        Except ℕ (List (String × ℕ))) :=
  ⟨(C3_train_all_models_abort (Except.ok 4) (Except.ok 5) (Except.error 7)
      (Except.ok 6)).2.2.1 4 5 7 rfl rfl rfl,
   (C3_train_all_models_abort (Except.ok 4) (Except.ok 5) (Except.ok 6)
      (Except.ok 8)).2.2.2.2 4 5 6 8 rfl rfl rfl rfl⟩

/-- C10: the label is the part of the file name before the first
underscore with every digit character removed — also digits in the
middle, not only trailing ones — so no label returned by the loader
contains a digit. -/
theorem C10_label_no_digit :
    (∀ fname : List Char, ∀ c ∈ extractLabel fname, c.isDigit = false) ∧
    extractLabel ("Caja12_gauss_0.10.png".toList) = "Caja".toList ∧
    extractLabel ("A1x2_y.png".toList) = "Ax".toList := by
  refine ⟨?_, by decide, by decide⟩
  intro fname c hc
  have hp := List.of_mem_filter hc
  simpa using hp

/-- Witness for `C10_label_no_digit` at a concrete input. -/
theorem C10_label_no_digit_witness :
    ('C' ∈ extractLabel ("Caja12_gauss_0.10.png".toList)) ∧ 'C'.isDigit = false :=
  ⟨by decide, C10_label_no_digit.1 ("Caja12_gauss_0.10.png".toList) 'C' (by decide)⟩

/-- C8, counterexample: an input of shape `(2, 2048)` does not match the
fixed image dimensions (its rows have 2048 ≠ 64·64 elements), yet
`_reshape_for_cnn` silently reshapes it into one 64×64×1 image instead
of failing, because the total element count 4096 is divisible by 64·64. -/
theorem C8_shape_cex :
    reshape_for_cnn 2 2048 = Except.ok (1, IMG_SIZE.1, IMG_SIZE.2, 1) ∧
    2048 ≠ IMG_SIZE.1 * IMG_SIZE.2 := by
  refine ⟨?_, by decide⟩
  rfl

/-- C8 (amended): `_reshape_for_cnn` (through which both the trainer and
`predict` pass every input) fails with a fatal `ShapeError` exactly when
the input's total element count is not a multiple of `64·64·1`; an input
whose total is such a multiple is reshaped without error even when its
own shape does not match the image dimensions. -/
theorem C8_reshape_divisibility (rows cols : ℕ) :
    (reshape_for_cnn rows cols = Except.error "ShapeError" ↔
      ¬ (IMG_SIZE.1 * IMG_SIZE.2 * 1) ∣ rows * cols) ∧
    ((IMG_SIZE.1 * IMG_SIZE.2 * 1) ∣ rows * cols →
      reshape_for_cnn rows cols =
        Except.ok (rows * cols / (IMG_SIZE.1 * IMG_SIZE.2 * 1), IMG_SIZE.1, IMG_SIZE.2, 1)) := by
  constructor
  · constructor
    · intro he hdvd
      have h0 : rows * cols % (IMG_SIZE.1 * IMG_SIZE.2 * 1) = 0 :=
        Nat.dvd_iff_mod_eq_zero.mp hdvd
      rw [reshape_for_cnn, if_pos h0] at he
      exact Except.noConfusion he
    · intro hnd
      have h0 : ¬ rows * cols % (IMG_SIZE.1 * IMG_SIZE.2 * 1) = 0 :=
        fun h => hnd (Nat.dvd_iff_mod_eq_zero.mpr h)
      rw [reshape_for_cnn, if_neg h0]
  · intro hd
    rw [reshape_for_cnn, if_pos (Nat.dvd_iff_mod_eq_zero.mp hd)]

/-- Witness for `C8_reshape_divisibility` at a concrete input. -/
theorem C8_reshape_divisibility_witness :
    reshape_for_cnn 1 5 = Except.error "ShapeError" :=
  (C8_reshape_divisibility 1 5).1.mpr (by decide)

/-- C7: for every fitted codec and every name in its vocabulary,
`decode (encode n) = n`; the assigned id is a dense index below `K`, and
the vocabulary is the sorted, duplicate-free list of distinct names. -/
theorem C7_label_codec_roundtrip (names : List String) (n : String) (hn : n ∈ names) :
    decode names (encode names n) = some n ∧
    encode names n < (fitClasses names).length ∧
    (fitClasses names).Sorted (fun a b => a ≤ b) ∧
    (fitClasses names).Nodup := by
  have hmem : n ∈ fitClasses names :=
    (List.perm_insertionSort _ _).mem_iff.mpr (List.mem_dedup.mpr hn)
  refine ⟨?_, ?_, ?_, ?_⟩
  · exact List.getElem?_indexOf hmem
  · exact List.indexOf_lt_length.mpr hmem
  · exact List.sorted_insertionSort _ _
  · exact (List.perm_insertionSort _ _).nodup_iff.mpr (List.nodup_dedup _)

/-- Witness for `C7_label_codec_roundtrip` at a concrete input. -/
theorem C7_label_codec_roundtrip_witness :
    decode ["Tanque", "Caja", "Tanque"] (encode ["Tanque", "Caja", "Tanque"] "Caja") =
      some "Caja" :=
  (C7_label_codec_roundtrip ["Tanque", "Caja", "Tanque"] "Caja" (by decide)).1

section MetricsLemmas

theorem countP_zip_self (y : List ℤ) :
    (y.zip y).countP (fun p => p.1 == p.2) = y.length := by
  induction y with
  | nil => rfl
  | cons a t ih => simp [List.countP_cons, ih]

theorem tpCount_self (y : List ℤ) (c : ℤ) : tpCount y y c = y.count c := by
  induction y with
  | nil => rfl
  | cons a t ih =>
    simp only [tpCount] at ih ⊢
    simp [List.zip_cons_cons, List.countP_cons, List.count_cons, ih]

theorem precClass_self (y : List ℤ) (c : ℤ) (hc : c ∈ y) : precClass y y c = 1 := by
  have h0 : y.count c ≠ 0 := (List.count_pos_iff.mpr hc).ne'
  rw [precClass, if_neg h0, tpCount_self]
  exact div_self (Nat.cast_ne_zero.mpr h0)

theorem recClass_self (y : List ℤ) (c : ℤ) (hc : c ∈ y) : recClass y y c = 1 := by
  have h0 : y.count c ≠ 0 := (List.count_pos_iff.mpr hc).ne'
  rw [recClass, if_neg h0, tpCount_self]
  exact div_self (Nat.cast_ne_zero.mpr h0)

theorem f1Class_self (y : List ℤ) (c : ℤ) (hc : c ∈ y) : f1Class y y c = 1 := by
  rw [f1Class, precClass_self y c hc, recClass_self y c hc]
  norm_num

theorem classLabels_self_toFinset (y : List ℤ) :
    (classLabels y y).toFinset = y.toFinset := by
  refine List.toFinset.ext (fun x => ?_)
  simp [classLabels, List.mem_dedup]

/-- The support-weighted average of a score that is `1` on every present
class is `1` (on a nonempty label list). -/
theorem weightedAvg_self_one (y : List ℤ) (g : ℤ → ℚ) (hy : y ≠ [])
    (hg : ∀ c ∈ y, g c = 1) : weightedAvg y y g = 1 := by
  have hnd : (classLabels y y).Nodup := List.nodup_dedup _
  have hsum : ((classLabels y y).map (fun c => (y.count c : ℚ) * g c)).sum
      = ∑ a ∈ (classLabels y y).toFinset, (y.count a : ℚ) * g a :=
    (List.sum_toFinset _ hnd).symm
  have hfs := classLabels_self_toFinset y
  have hone : ∑ a ∈ y.toFinset, (y.count a : ℚ) * g a
      = ∑ a ∈ y.toFinset, (y.count a : ℚ) := by
    refine Finset.sum_congr rfl (fun a ha => ?_)
    rw [hg a (List.mem_toFinset.mp ha), mul_one]
  have hlen : ∑ a ∈ y.toFinset, (y.count a : ℚ) = (y.length : ℚ) := by
    rw [← Nat.cast_sum]
    exact_mod_cast congrArg (Nat.cast : ℕ → ℚ) (List.sum_toFinset_count_eq_length y)
  rw [weightedAvg, hsum, hfs, hone, hlen]
  exact div_self (Nat.cast_ne_zero.mpr (List.length_pos.mpr hy).ne')

end MetricsLemmas

/-- C5: on any nonempty label list compared with itself,
`compute_metrics` returns accuracy, precision, recall and F1 all exactly
`1`; and a class with zero predicted instances contributes `0` (never an
undefined value) to its precision term. -/
theorem C5_compute_metrics_self (y : List ℤ) (hy : y ≠ []) :
    compute_metrics y y = ⟨1, 1, 1, 1⟩ ∧
    (∀ yt yp : List ℤ, ∀ c : ℤ, yp.count c = 0 → precClass yt yp c = 0) := by
  have hmem : ∀ c ∈ classLabels y y, c ∈ y := by
    intro c hc
    have := List.mem_dedup.mp hc
    simpa using this
  constructor
  · have ha : accuracy_score y y = 1 := by
      rw [accuracy_score, countP_zip_self]
      exact div_self (Nat.cast_ne_zero.mpr (List.length_pos.mpr hy).ne')
    have hp : precision_score y y = 1 :=
      weightedAvg_self_one y _ hy (fun c hc => precClass_self y c hc)
    have hr : recall_score y y = 1 :=
      weightedAvg_self_one y _ hy (fun c hc => recClass_self y c hc)
    have hf : f1_score y y = 1 :=
      weightedAvg_self_one y _ hy (fun c hc => f1Class_self y c hc)
    simp only [compute_metrics, Metrics.mk.injEq]
    exact ⟨ha, hp, hr, hf⟩
  · intro yt yp c h0
    rw [precClass, if_pos h0]

/-- Witness for `C5_compute_metrics_self` at a concrete input. -/
theorem C5_compute_metrics_self_witness :
    compute_metrics [0, 1, 1] [0, 1, 1] = ⟨1, 1, 1, 1⟩ :=
  (C5_compute_metrics_self [0, 1, 1] (by decide)).1

section EarlyStoppingLemmas

theorem listMin_append (l : List ℚ) (v : ℚ) (hl : l ≠ []) :
    listMin (l ++ [v]) = min (listMin l) v := by
  obtain ⟨a, t, rfl⟩ := List.exists_cons_of_ne_nil hl
  show (t ++ [v]).foldl min a = min (t.foldl min a) v
  rw [List.foldl_append]
  rfl

/-- Appending a non-improving loss extends the non-improvement streak. -/
theorem streak_extend (hist : List ℚ) (v : ℚ) (wait : ℕ) (hmin : listMin hist ≤ v)
    (h6 : ∀ j, ∀ hj : j < hist.length, hist.length - wait ≤ j →
      listMin (hist.take j) ≤ hist.get ⟨j, hj⟩) :
    ∀ j, ∀ hj : j < (hist ++ [v]).length, (hist ++ [v]).length - (wait + 1) ≤ j →
      listMin ((hist ++ [v]).take j) ≤ (hist ++ [v]).get ⟨j, hj⟩ := by
  intro j hj hge
  have hlen : (hist ++ [v]).length = hist.length + 1 := by simp
  have hj1 : j < hist.length + 1 := hlen ▸ hj
  have hge1 : hist.length + 1 - (wait + 1) ≤ j := hlen ▸ hge
  by_cases hjl : j < hist.length
  · have ht : (hist ++ [v]).take j = hist.take j :=
      List.take_append_of_le_length (le_of_lt hjl)
    have hg : (hist ++ [v]).get ⟨j, hj⟩ = hist.get ⟨j, hjl⟩ := by
      simp [List.get_eq_getElem, List.getElem_append_left hjl]
    rw [ht, hg]
    exact h6 j hjl (by omega)
  · have hje : j = hist.length := by omega
    subst hje
    have hg : (hist ++ [v]).get ⟨hist.length, hj⟩ = v := by
      simp [List.get_eq_getElem]
    have ht : (hist ++ [v]).take hist.length = hist := by simp
    rw [hg, ht]
    exact hmin

/-- Invariant lemma for the epoch loop: from a consistent state, the
loop produces a `RunOK` outcome for the corresponding epoch budget. -/
theorem esAux_spec (vloss : ℕ → ℚ) (patience : ℕ) (hpat : 0 < patience) :
    ∀ (r : ℕ) (hist : List ℚ) (best : ℚ) (bi wait : ℕ),
      hist ≠ [] → best = listMin hist →
      (∃ hb : bi < hist.length, hist.get ⟨bi, hb⟩ = best) →
      wait ≤ hist.length → wait < patience →
      (∀ j, ∀ hj : j < hist.length, hist.length - wait ≤ j →
        listMin (hist.take j) ≤ hist.get ⟨j, hj⟩) →
      RunOK patience (hist.length + r) (esAux vloss patience r hist best bi wait) := by
  intro r
  induction r with
  | zero =>
    intro hist best bi wait h1 h2 h3 _ _ _
    obtain ⟨hb, hbe⟩ := h3
    exact ⟨le_refl _, h1, ⟨hb, hbe.trans h2⟩, fun _ => rfl, fun he => absurd he (by simp [esAux])⟩
  | succ r ih =>
    intro hist best bi wait h1 h2 h3 h4 h5 h6
    simp only [esAux]
    have hminEq : best = listMin hist := h2
    by_cases himp : vloss hist.length < best
    · rw [if_pos himp]
      have heq : hist.length + (r + 1) = (hist ++ [vloss hist.length]).length + r := by
        simp; omega
      rw [heq]
      apply ih
      · simp
      · rw [listMin_append hist _ h1, min_eq_right (le_of_lt (hminEq ▸ himp))]
      · refine ⟨by simp, ?_⟩
        simp [List.get_eq_getElem]
      · simp
      · exact hpat
      · intro j hj hge
        have : (hist ++ [vloss hist.length]).length = hist.length + 1 := by simp
        omega
    · rw [if_neg himp]
      have hbv : listMin hist ≤ vloss hist.length := hminEq ▸ not_lt.mp himp
      by_cases hstop : patience ≤ wait + 1
      · rw [if_pos hstop]
        have hpw : patience = wait + 1 := le_antisymm hstop h5
        obtain ⟨hb, hbe⟩ := h3
        refine ⟨by simp only [List.length_append, List.length_singleton]; omega, by simp, ?_,
          fun he => absurd he (by simp), fun _ => ?_⟩
        · refine ⟨by simp; omega, ?_⟩
          have hg : (hist ++ [vloss hist.length]).get
              ⟨bi, by simp; omega⟩ = hist.get ⟨bi, hb⟩ := by
            simp [List.get_eq_getElem, List.getElem_append_left hb]
          show (hist ++ [vloss hist.length]).get ⟨bi, _⟩ =
            listMin (hist ++ [vloss hist.length])
          rw [hg, hbe, listMin_append hist _ h1, min_eq_left hbv]
          exact hminEq
        · constructor
          · simp; omega
          · have := streak_extend hist (vloss hist.length) wait hbv h6
            rw [hpw]
            exact this
      · rw [if_neg hstop]
        have heq : hist.length + (r + 1) = (hist ++ [vloss hist.length]).length + r := by
          simp; omega
        rw [heq]
        apply ih
        · simp
        · rw [listMin_append hist _ h1, min_eq_left hbv]
          exact hminEq
        · obtain ⟨hb, hbe⟩ := h3
          refine ⟨by simp; omega, ?_⟩
          have hg : (hist ++ [vloss hist.length]).get
              ⟨bi, by simp; omega⟩ = hist.get ⟨bi, hb⟩ := by
            simp [List.get_eq_getElem, List.getElem_append_left hb]
          rw [hg]
          exact hbe
        · simp; omega
        · omega
        · exact streak_extend hist (vloss hist.length) wait hbv h6

end EarlyStoppingLemmas

/-- C4: the training-history length never exceeds the epoch ceiling
(50), the ceiling is used in full unless early stopping fired, the
restored epoch's validation loss equals the minimum recorded in the
history exactly, and when early stopping fires the last `patience` (5)
epochs each failed to improve on the best validation loss seen before
them. -/
theorem C4_train_cnn_early_stopping (vloss : ℕ → ℚ) :
    (train_cnn vloss).hist.length ≤ CNN_EPOCHS ∧
    ((train_cnn vloss).early = false → (train_cnn vloss).hist.length = CNN_EPOCHS) ∧
    (∃ hb : (train_cnn vloss).bestIdx < (train_cnn vloss).hist.length,
      (train_cnn vloss).hist.get ⟨(train_cnn vloss).bestIdx, hb⟩ =
        listMin (train_cnn vloss).hist) ∧
    ((train_cnn vloss).early = true →
      CNN_EARLY_STOPPING_PATIENCE ≤ (train_cnn vloss).hist.length ∧
      ∀ j, ∀ hj : j < (train_cnn vloss).hist.length,
        (train_cnn vloss).hist.length - CNN_EARLY_STOPPING_PATIENCE ≤ j →
          listMin ((train_cnn vloss).hist.take j) ≤ (train_cnn vloss).hist.get ⟨j, hj⟩) := by
  have h := esAux_spec vloss CNN_EARLY_STOPPING_PATIENCE (by decide) (CNN_EPOCHS - 1)
    [vloss 0] (vloss 0) 0 0 (by simp) rfl ⟨by simp, rfl⟩ (by simp) (by decide)
    (by intro j hj hge; simp at hj hge; omega)
  have hcap : ([vloss 0] : List ℚ).length + (CNN_EPOCHS - 1) = CNN_EPOCHS := by
    simp [CNN_EPOCHS]
  rw [hcap] at h
  obtain ⟨hA, _, hC, hD, hE⟩ := h
  exact ⟨hA, hD, hC, hE⟩

/-- Witness for `C4_train_cnn_early_stopping`: with a constant
validation loss, training stops early after the patience is exhausted,
within the epoch ceiling. -/
theorem C4_train_cnn_early_stopping_witness :
    (train_cnn (fun _ => 1)).hist.length ≤ CNN_EPOCHS ∧
    CNN_EARLY_STOPPING_PATIENCE ≤ (train_cnn (fun _ => 1)).hist.length :=
  ⟨(C4_train_cnn_early_stopping (fun _ => 1)).1,
   ((C4_train_cnn_early_stopping (fun _ => 1)).2.2.2 (by decide)).1⟩

section SplitLemmas

/-- Core counting fact: the positions of class `c` whose in-class rank
is below a threshold `t` number `min t (count c)`. -/
theorem countRank (c t : ℕ) (L : List ℕ) :
    ((List.range L.length).filter
      (fun i => decide ((L.take i).count c < t) && (labelAt L i == c))).length
      = min t (L.count c) := by
  induction L using List.reverseRecOn with
  | nil => simp
  | append_singleton M a ih =>
    rw [List.length_append, List.length_singleton, List.range_succ, List.filter_append]
    have hcong : ∀ i ∈ List.range M.length,
        (decide (((M ++ [a]).take i).count c < t) && (labelAt (M ++ [a]) i == c))
        = (decide ((M.take i).count c < t) && (labelAt M i == c)) := by
      intro i hi
      have hi' : i < M.length := List.mem_range.mp hi
      rw [List.take_append_of_le_length (le_of_lt hi')]
      have hlab : labelAt (M ++ [a]) i = labelAt M i := by
        rw [labelAt, labelAt, List.getD_eq_getElem?_getD, List.getD_eq_getElem?_getD,
          List.getElem?_append_left hi']
      rw [hlab]
    rw [List.filter_congr hcong, List.length_append, ih]
    have hlast : labelAt (M ++ [a]) M.length = a := by
      rw [labelAt, List.getD_eq_getElem?_getD, List.getElem?_concat_length]
      rfl
    have htake : (M ++ [a]).take M.length = M := by simp
    have hcnt : (M ++ [a]).count c = M.count c + if a = c then 1 else 0 := by
      rw [List.count_append]
      rcases eq_or_ne a c with h | h
      · simp [h]
      · have hnm : c ∉ [a] := fun hm => h ((List.mem_singleton.mp hm).symm)
        rw [List.count_eq_zero_of_not_mem hnm]
        simp [h]
    by_cases hac : a = c
    · have hbeq : (a == c) = true := by simp [hac]
      by_cases hlt : M.count c < t
      · have hflen : (List.filter
            (fun i => decide (((M ++ [a]).take i).count c < t) && (labelAt (M ++ [a]) i == c))
            [M.length]).length = 1 := by
          simp [htake, hlast, hbeq, hlt]
        rw [hflen, hcnt, if_pos hac]
        omega
      · have hflen : (List.filter
            (fun i => decide (((M ++ [a]).take i).count c < t) && (labelAt (M ++ [a]) i == c))
            [M.length]).length = 0 := by
          simp [htake, hlast, hlt]
        rw [hflen, hcnt, if_pos hac]
        omega
    · have hbeq : (a == c) = false := by simp [hac]
      have hflen : (List.filter
          (fun i => decide (((M ++ [a]).take i).count c < t) && (labelAt (M ++ [a]) i == c))
          [M.length]).length = 0 := by
        simp [htake, hlast, hbeq]
      rw [hflen, hcnt, if_neg hac]
      omega

/-- The positions carrying class `c` number `count c`. -/
theorem countClass (c : ℕ) (L : List ℕ) :
    ((List.range L.length).filter (fun i => labelAt L i == c)).length = L.count c := by
  have h := countRank c (L.count c) L
  rw [min_self] at h
  rw [← h]
  refine congrArg _ (List.filter_congr ?_)
  intro i hi
  have hi' : i < L.length := List.mem_range.mp hi
  by_cases hc : labelAt L i = c
  · have hgi : L[i] = c := by
      rw [← List.getD_eq_getElem L 0 hi']
      exact hc
    have hcount : (L.take i).count c < L.count c := by
      have hsplit : L.count c = (L.take i).count c + (L.drop i).count c := by
        rw [← List.count_append, List.take_append_drop]
      have hdrop : (L.drop i).count c ≥ 1 := by
        rw [List.drop_eq_getElem_cons hi', hgi, List.count_cons]
        simp
      omega
    simp [hc, hcount]
  · simp [hc]

/-- Splitting a filter by a second Boolean test preserves total length. -/
theorem filter_split_length (l : List ℕ) (q r : ℕ → Bool) :
    (l.filter (fun i => q i && r i)).length + (l.filter (fun i => !q i && r i)).length
      = (l.filter r).length := by
  induction l with
  | nil => rfl
  | cons x xs ih =>
    by_cases hq : q x <;> by_cases hr : r x <;>
      simp [List.filter_cons, hq, hr] <;> omega

/-- Bridging a Boolean filter over `List.range` with its `Finset`
counterpart. -/
theorem card_filter_range (n : ℕ) (q : ℕ → Bool) :
    ((Finset.range n).filter (fun i => q i = true)).card = ((List.range n).filter q).length := by
  rw [← List.toFinset_card_of_nodup ((List.nodup_range n).filter q)]
  congr 1
  ext x
  simp [List.mem_filter]

/-- The test partition holds exactly the quota of each class. -/
theorem testClassList (L : List ℕ) (c : ℕ) :
    ((List.range L.length).filter (fun i => goesToTest L i && (labelAt L i == c))).length
      = testQuota L c := by
  have h := countRank c (testQuota L c) L
  have hq : testQuota L c ≤ L.count c := Nat.sub_le _ _
  rw [min_eq_left hq] at h
  rw [← h]
  refine congrArg _ (List.filter_congr ?_)
  intro i _
  by_cases hc : labelAt L i = c
  · rw [goesToTest, hc]
  · have hbeq : (labelAt L i == c) = false := by simp [hc]
    rw [hbeq]
    simp

/-- The train partition holds each class's count minus its test quota. -/
theorem trainClassList (L : List ℕ) (c : ℕ) :
    classCountIn L (trainIdx L) c = L.count c - testQuota L c := by
  rw [classCountIn, trainIdx, List.filter_filter]
  have hsplit := filter_split_length (List.range L.length)
    (fun i => goesToTest L i) (fun i => labelAt L i == c)
  have h1 := testClassList L c
  have h2 := countClass c L
  have hcomm : (List.range L.length).filter (fun a => (labelAt L a == c) && ! goesToTest L a)
      = (List.range L.length).filter (fun a => ! goesToTest L a && (labelAt L a == c)) :=
    List.filter_congr (fun i _ => Bool.and_comm _ _)
  rw [hcomm]
  omega

/-- The two partitions account for every sample. -/
theorem split_lengths (L : List ℕ) :
    (trainIdx L).length + (testIdx L).length = L.length := by
  have h := filter_split_length (List.range L.length) (fun i => goesToTest L i) (fun _ => true)
  simp only [Bool.and_true] at h
  rw [List.filter_true, List.length_range] at h
  rw [trainIdx, testIdx]
  omega

/-- The test partition's size is the sum of the class quotas. -/
theorem testIdx_sum_quota (L : List ℕ) :
    (testIdx L).length = ∑ c ∈ L.toFinset, testQuota L c := by
  have hbr := card_filter_range L.length (fun i => goesToTest L i)
  have hmap : ∀ x ∈ (Finset.range L.length).filter (fun i => goesToTest L i = true),
      labelAt L x ∈ L.toFinset := by
    intro x hx
    have hxr : x < L.length := Finset.mem_range.mp (Finset.mem_filter.mp hx).1
    rw [List.mem_toFinset, labelAt, List.getD_eq_getElem L 0 hxr]
    exact List.getElem_mem hxr
  have hfib : ∀ c ∈ L.toFinset,
      (((Finset.range L.length).filter (fun i => goesToTest L i = true)).filter
        (fun i => labelAt L i = c)).card = testQuota L c := by
    intro c _
    rw [Finset.filter_filter]
    have hpred : ((Finset.range L.length).filter
          (fun i => goesToTest L i = true ∧ labelAt L i = c)).card
        = ((Finset.range L.length).filter
          (fun i => (goesToTest L i && (labelAt L i == c)) = true)).card := by
      congr 1
      refine Finset.filter_congr ?_
      intro x _
      simp [Bool.and_eq_true]
    rw [hpred, card_filter_range]
    exact testClassList L c
  have h1 : (testIdx L).length =
      ((Finset.range L.length).filter (fun i => goesToTest L i = true)).card := by
    rw [testIdx]
    exact hbr.symm
  have h2 : ((Finset.range L.length).filter (fun i => goesToTest L i = true)).card =
      ∑ c ∈ L.toFinset, testQuota L c := by
    rw [Finset.card_eq_sum_card_fiberwise hmap]
    exact Finset.sum_congr rfl hfib
  rw [h1, h2]

/-- A sum of a function over the distinct classes equals the
corresponding `Finset` sum. -/
theorem sum_map_dedup (L : List ℕ) (f : ℕ → ℕ) :
    ((L.dedup).map f).sum = ∑ c ∈ L.toFinset, f c := by
  rw [← List.sum_toFinset f (List.nodup_dedup L)]
  congr 1
  refine List.toFinset.ext (fun x => ?_)
  simp [List.mem_dedup]

theorem nTest_pos (L : List ℕ) (h : L ≠ []) : 0 < nTest L := by
  have : 1 ≤ L.length := List.length_pos.mpr h
  rw [nTest]
  omega

theorem nTest_le (L : List ℕ) : nTest L ≤ L.length := by
  rw [nTest]
  omega

theorem nTrain_lt (L : List ℕ) (h : L ≠ []) : nTrain L < L.length := by
  have h1 := nTest_pos L h
  have h2 := nTest_le L
  have h3 : 1 ≤ L.length := List.length_pos.mpr h
  rw [nTrain]
  omega

/-- Division identity for the proportional share of a class. -/
theorem base_rem (L : List ℕ) (h : L ≠ []) (c : ℕ) :
    L.length * baseAlloc L c + remAlloc L c = L.count c * nTrain L ∧
    remAlloc L c < L.length :=
  ⟨Nat.div_add_mod _ _, Nat.mod_lt _ (List.length_pos.mpr h)⟩

/-- Every class receiving a leftover slot occurs in the dataset. -/
theorem extraClasses_subset (L : List ℕ) : ∀ c ∈ extraClasses L, c ∈ L := by
  intro c hc
  have h1 : c ∈ rankedClasses L := List.take_subset _ _ hc
  have h2 : c ∈ classesOf L := (List.perm_insertionSort _ _).mem_iff.mp h1
  exact List.mem_dedup.mp h2

/-- The train allocation of a class never exceeds its size. -/
theorem alloc_le_count (L : List ℕ) (h : L ≠ []) (c : ℕ) :
    trainAlloc L c ≤ L.count c := by
  have hn : 0 < L.length := List.length_pos.mpr h
  rw [trainAlloc]
  by_cases hc : c ∈ extraClasses L
  · rw [if_pos hc]
    have hcL : c ∈ L := extraClasses_subset L c hc
    have hcnt : 0 < L.count c := List.count_pos_iff.mpr hcL
    have hmn : nTrain L < L.length := nTrain_lt L h
    have hb : baseAlloc L c < L.count c := by
      rw [baseAlloc]
      exact Nat.div_lt_of_lt_mul
        (by calc L.count c * nTrain L < L.count c * L.length :=
              Nat.mul_lt_mul_of_pos_left hmn hcnt
            _ = L.length * L.count c := Nat.mul_comm _ _)
    omega
  · rw [if_neg hc]
    have hb : baseAlloc L c ≤ L.count c := by
      rw [baseAlloc]
      have h1 : L.count c * nTrain L ≤ L.count c * L.length :=
        Nat.mul_le_mul_left _ (Nat.sub_le _ _)
      have h2 : L.count c * L.length / L.length = L.count c := Nat.mul_div_cancel _ hn
      calc L.count c * nTrain L / L.length ≤ L.count c * L.length / L.length :=
            Nat.div_le_div_right h1
        _ = L.count c := h2
    omega

/-- Summed division identity over the distinct classes. -/
theorem sum_base_rem (L : List ℕ) :
    L.length * (∑ c ∈ L.toFinset, baseAlloc L c) + (∑ c ∈ L.toFinset, remAlloc L c)
      = nTrain L * L.length := by
  have hterm : ∀ c ∈ L.toFinset, L.length * baseAlloc L c + remAlloc L c
      = L.count c * nTrain L := fun c _ => Nat.div_add_mod _ _
  calc L.length * (∑ c ∈ L.toFinset, baseAlloc L c) + (∑ c ∈ L.toFinset, remAlloc L c)
      = ∑ c ∈ L.toFinset, (L.length * baseAlloc L c + remAlloc L c) := by
        rw [Finset.sum_add_distrib, Finset.mul_sum]
    _ = ∑ c ∈ L.toFinset, L.count c * nTrain L := Finset.sum_congr rfl hterm
    _ = (∑ c ∈ L.toFinset, L.count c) * nTrain L := (Finset.sum_mul _ _ _).symm
    _ = L.length * nTrain L := by rw [List.sum_toFinset_count_eq_length]
    _ = nTrain L * L.length := Nat.mul_comm _ _

/-- The base shares never overshoot the train-partition size. -/
theorem sum_base_le (L : List ℕ) (h : L ≠ []) :
    (∑ c ∈ L.toFinset, baseAlloc L c) ≤ nTrain L := by
  have hn : 0 < L.length := List.length_pos.mpr h
  have hid := sum_base_rem L
  by_contra hgt
  push_neg at hgt
  have : L.length * (nTrain L + 1) ≤ L.length * (∑ c ∈ L.toFinset, baseAlloc L c) :=
    Nat.mul_le_mul_left _ hgt
  have hlt : nTrain L * L.length < L.length * (nTrain L + 1) := by
    rw [Nat.mul_comm (nTrain L) L.length]
    exact Nat.mul_lt_mul_of_pos_left (Nat.lt_succ_self _) hn
  omega

/-- Fewer leftover slots than distinct classes. -/
theorem extraCount_lt_card (L : List ℕ) (h : L ≠ []) :
    extraCount L < L.toFinset.card := by
  have hn : 0 < L.length := List.length_pos.mpr h
  have hid := sum_base_rem L
  have hle := sum_base_le L h
  have hcard : 0 < L.toFinset.card := by
    rw [Finset.card_pos]
    exact ⟨L.headD 0, List.mem_toFinset.mpr (by
      cases L with
      | nil => exact absurd rfl h
      | cons a t => exact List.mem_cons_self a t)⟩
  have hremlt : (∑ c ∈ L.toFinset, remAlloc L c) < L.toFinset.card * L.length := by
    have hbound : ∀ c ∈ L.toFinset, remAlloc L c ≤ L.length - 1 :=
      fun c _ => Nat.le_sub_one_of_lt (Nat.mod_lt _ hn)
    calc (∑ c ∈ L.toFinset, remAlloc L c) ≤ ∑ _c ∈ L.toFinset, (L.length - 1) :=
          Finset.sum_le_sum hbound
      _ = L.toFinset.card * (L.length - 1) := by rw [Finset.sum_const, smul_eq_mul]
      _ < L.toFinset.card * L.length :=
          Nat.mul_lt_mul_of_pos_left (by omega) hcard
  rw [extraCount, classesOf, sum_map_dedup]
  -- from L.length * base-sum + rem-sum = nTrain * L.length and
  -- rem-sum < card * L.length, conclude nTrain - base-sum < card
  refine Nat.lt_of_mul_lt_mul_left (a := L.length) ?_
  have hdistrib : L.length * (nTrain L - ∑ c ∈ L.toFinset, baseAlloc L c)
      + L.length * (∑ c ∈ L.toFinset, baseAlloc L c) = L.length * nTrain L := by
    rw [← Nat.left_distrib]
    congr 1
    omega
  have hmulsub2 : L.length * nTrain L = nTrain L * L.length := Nat.mul_comm _ _
  have hcl : L.length * L.toFinset.card = L.toFinset.card * L.length := Nat.mul_comm _ _
  omega

/-- The leftover classes are as many as the leftover slots. -/
theorem extraClasses_length (L : List ℕ) (h : L ≠ []) :
    (extraClasses L).length = extraCount L := by
  rw [extraClasses, List.length_take]
  have hlen : (rankedClasses L).length = L.toFinset.card := by
    rw [rankedClasses, (List.perm_insertionSort _ _).length_eq, classesOf,
      List.card_toFinset]
  rw [hlen]
  exact min_eq_left (le_of_lt (extraCount_lt_card L h))

theorem extraClasses_nodup (L : List ℕ) : (extraClasses L).Nodup := by
  have hr : (rankedClasses L).Nodup :=
    (List.perm_insertionSort _ _).nodup_iff.mpr (List.nodup_dedup _)
  exact hr.sublist (List.take_sublist _ _)

/-- The leftover slots counted through the class indicator. -/
theorem sum_indicator (L : List ℕ) (h : L ≠ []) :
    (∑ c ∈ L.toFinset, if c ∈ extraClasses L then 1 else 0) = extraCount L := by
  have hflt : L.toFinset.filter (fun c => c ∈ extraClasses L) = (extraClasses L).toFinset := by
    refine Finset.ext (fun x => ?_)
    simp only [Finset.mem_filter, List.mem_toFinset]
    exact ⟨fun hx => hx.2, fun hx => ⟨extraClasses_subset L x hx, hx⟩⟩
  calc (∑ c ∈ L.toFinset, if c ∈ extraClasses L then 1 else 0)
      = (L.toFinset.filter (fun c => c ∈ extraClasses L)).card :=
        (Finset.card_filter _ _).symm
    _ = (extraClasses L).toFinset.card := by rw [hflt]
    _ = (extraClasses L).length := List.toFinset_card_of_nodup (extraClasses_nodup L)
    _ = extraCount L := extraClasses_length L h

/-- The train allocations fill the train partition exactly. -/
theorem sum_alloc (L : List ℕ) (h : L ≠ []) :
    (∑ c ∈ L.toFinset, trainAlloc L c) = nTrain L := by
  have hsplit : (∑ c ∈ L.toFinset, trainAlloc L c)
      = (∑ c ∈ L.toFinset, baseAlloc L c) +
        (∑ c ∈ L.toFinset, if c ∈ extraClasses L then 1 else 0) := by
    rw [← Finset.sum_add_distrib]
    exact Finset.sum_congr rfl (fun c _ => rfl)
  have hind := sum_indicator L h
  have hle := sum_base_le L h
  have hec : extraCount L = nTrain L - ∑ c ∈ L.toFinset, baseAlloc L c := by
    rw [extraCount, classesOf, sum_map_dedup]
  omega

/-- The class quotas fill the test partition exactly. -/
theorem sum_quota (L : List ℕ) (h : L ≠ []) :
    (∑ c ∈ L.toFinset, testQuota L c) = L.length - nTrain L := by
  have hterm : ∀ c ∈ L.toFinset, testQuota L c + trainAlloc L c = L.count c :=
    fun c _ => Nat.sub_add_cancel (alloc_le_count L h c)
  have hsum : (∑ c ∈ L.toFinset, testQuota L c) + (∑ c ∈ L.toFinset, trainAlloc L c)
      = ∑ c ∈ L.toFinset, L.count c := by
    rw [← Finset.sum_add_distrib]
    exact Finset.sum_congr rfl hterm
  rw [List.sum_toFinset_count_eq_length] at hsum
  have halloc := sum_alloc L h
  have hmle : nTrain L ≤ L.length := Nat.sub_le _ _
  omega

/-- The test partition has exactly `⌈len/5⌉` indices. -/
theorem testIdx_length (L : List ℕ) : (testIdx L).length = nTest L := by
  rcases eq_or_ne L [] with rfl | h
  · rfl
  · rw [testIdx_sum_quota, sum_quota L h, nTrain]
    have := nTest_le L
    omega

/-- The train partition has exactly the complementary size. -/
theorem trainIdx_length (L : List ℕ) : (trainIdx L).length = nTrain L := by
  have h1 := split_lengths L
  have h2 := testIdx_length L
  have h3 := nTest_le L
  rw [nTrain]
  omega

/-- The amended proportionality bound: every present class's train
fraction is within `1 / len(train)` of its full-dataset fraction. -/
theorem trainFrac_bound (L : List ℕ) (c : ℕ) (hc : c ∈ L) (hm : 0 < nTrain L) :
    |classFrac L (trainIdx L) c - fullFrac L c| ≤ 1 / (nTrain L : ℚ) := by
  have hne : L ≠ [] := List.ne_nil_of_mem hc
  have hn : 0 < L.length := List.length_pos.mpr hne
  have hclass : classCountIn L (trainIdx L) c = trainAlloc L c := by
    have h1 := trainClassList L c
    have h2 := alloc_le_count L hne c
    rw [testQuota] at h1
    omega
  rw [classFrac, fullFrac, hclass, trainIdx_length]
  obtain ⟨hid, hrem⟩ := base_rem L hne c
  have hmQ : (0 : ℚ) < (nTrain L : ℚ) := by exact_mod_cast hm
  have hnQ : (0 : ℚ) < (L.length : ℚ) := by exact_mod_cast hn
  have hidQ : (L.length : ℚ) * (baseAlloc L c : ℚ) + (remAlloc L c : ℚ)
      = (L.count c : ℚ) * (nTrain L : ℚ) := by exact_mod_cast hid
  have hremQ : (remAlloc L c : ℚ) < (L.length : ℚ) := by exact_mod_cast hrem
  have hrem0 : (0 : ℚ) ≤ (remAlloc L c : ℚ) := Nat.cast_nonneg _
  have hnabs : (L.length : ℚ) / ((nTrain L : ℚ) * (L.length : ℚ)) = 1 / (nTrain L : ℚ) := by
    rw [div_eq_div_iff (by positivity) hmQ.ne']
    ring
  by_cases he : c ∈ extraClasses L
  · have halloc : trainAlloc L c = baseAlloc L c + 1 := by rw [trainAlloc, if_pos he]
    rw [halloc]
    have hkey : ((baseAlloc L c + 1 : ℕ) : ℚ) / (nTrain L : ℚ) -
        (L.count c : ℚ) / (L.length : ℚ)
        = ((L.length : ℚ) - (remAlloc L c : ℚ)) / ((nTrain L : ℚ) * (L.length : ℚ)) := by
      push_cast
      rw [div_sub_div _ _ hmQ.ne' hnQ.ne']
      congr 1
      linear_combination hidQ
    rw [hkey, abs_of_nonneg (div_nonneg (by linarith) (by positivity))]
    rw [← hnabs]
    exact (div_le_div_iff_of_pos_right (by positivity)).mpr (by linarith)
  · have halloc : trainAlloc L c = baseAlloc L c := by rw [trainAlloc, if_neg he]; omega
    rw [halloc]
    have hkey : ((baseAlloc L c : ℕ) : ℚ) / (nTrain L : ℚ) -
        (L.count c : ℚ) / (L.length : ℚ)
        = -((remAlloc L c : ℚ) / ((nTrain L : ℚ) * (L.length : ℚ))) := by
      rw [div_sub_div _ _ hmQ.ne' hnQ.ne', ← neg_div]
      congr 1
      linear_combination hidQ
    rw [hkey, abs_neg, abs_of_nonneg (by positivity)]
    rw [← hnabs]
    exact (div_le_div_iff_of_pos_right (by positivity)).mpr (by linarith)

end SplitLemmas

/-- C6, counterexample: on the dataset with two samples of class `0`
and five of class `1` (`n = 7`, test size `⌈7/5⌉ = 2`, train size 5),
the stratified allocation gives train counts `(1, 4)` — class `1` wins
the single leftover slot on the larger remainder — so class `0` sits at
fraction 1/5 of the train partition against 2/7 of the full set, a gap
of 3/35 ≈ 8.6%, not below the 5% tolerance. -/
theorem C6_tolerance_cex :
    |classFrac [0, 0, 1, 1, 1, 1, 1] (trainIdx [0, 0, 1, 1, 1, 1, 1]) 0 -
      fullFrac [0, 0, 1, 1, 1, 1, 1] 0| = 3 / 35 ∧
    ¬ |classFrac [0, 0, 1, 1, 1, 1, 1] (trainIdx [0, 0, 1, 1, 1, 1, 1]) 0 -
      fullFrac [0, 0, 1, 1, 1, 1, 1] 0| < 1 / 20 := by
  have h1 : classCountIn [0, 0, 1, 1, 1, 1, 1] (trainIdx [0, 0, 1, 1, 1, 1, 1]) 0 = 1 := by
    decide
  have h2 : (trainIdx [0, 0, 1, 1, 1, 1, 1]).length = 5 := by decide
  have h3 : ([0, 0, 1, 1, 1, 1, 1] : List ℕ).count 0 = 2 := by decide
  have h4 : ([0, 0, 1, 1, 1, 1, 1] : List ℕ).length = 7 := by decide
  rw [classFrac, fullFrac, h1, h2, h3, h4]
  constructor
  · rw [abs_of_nonpos (by norm_num)]
    norm_num
  · rw [abs_of_nonpos (by norm_num)]
    norm_num

/-- C6 (amended): the stratified split yields disjoint train/test index
sets whose union is the full dataset (hence the lengths add up, and the
test partition holds exactly `⌈len/5⌉` indices); each present class's
fraction in train differs from its fraction in the full set by at most
`1 / len(train)` — a size-dependent rounding bound, not a small fixed
tolerance such as 5%. -/
theorem C6_stratified_split (labels : List ℕ) :
    (∀ i ∈ trainIdx labels, i ∉ testIdx labels) ∧
    (∀ i : ℕ, (i ∈ trainIdx labels ∨ i ∈ testIdx labels) ↔ i < labels.length) ∧
    (trainIdx labels).length + (testIdx labels).length = labels.length ∧
    (testIdx labels).length = nTest labels ∧
    (∀ c ∈ labels, 0 < nTrain labels →
      |classFrac labels (trainIdx labels) c - fullFrac labels c| ≤
        1 / (nTrain labels : ℚ)) := by
  refine ⟨?_, ?_, split_lengths labels, testIdx_length labels,
    fun c hc hm => trainFrac_bound labels c hc hm⟩
  · intro i hit hite
    have h1 := (List.mem_filter.mp hit).2
    have h2 := (List.mem_filter.mp hite).2
    rw [Bool.not_eq_true'] at h1
    rw [h1] at h2
    exact Bool.false_ne_true h2
  · intro i
    constructor
    · rintro (h | h) <;> exact List.mem_range.mp (List.mem_filter.mp h).1
    · intro hi
      by_cases hg : goesToTest labels i
      · right
        exact List.mem_filter.mpr ⟨List.mem_range.mpr hi, by simp [hg]⟩
      · left
        exact List.mem_filter.mpr ⟨List.mem_range.mpr hi, by simp [hg]⟩

/-- Witness for `C6_stratified_split` at a concrete dataset. -/
theorem C6_stratified_split_witness :
    (trainIdx [0, 0, 0, 0, 0, 1, 1, 1, 1, 1]).length +
      (testIdx [0, 0, 0, 0, 0, 1, 1, 1, 1, 1]).length = 10 ∧
    |classFrac [0, 0, 0, 0, 0, 1, 1, 1, 1, 1] (trainIdx [0, 0, 0, 0, 0, 1, 1, 1, 1, 1]) 0 -
      fullFrac [0, 0, 0, 0, 0, 1, 1, 1, 1, 1] 0| ≤
        1 / (nTrain [0, 0, 0, 0, 0, 1, 1, 1, 1, 1] : ℚ) :=
  ⟨(C6_stratified_split [0, 0, 0, 0, 0, 1, 1, 1, 1, 1]).2.2.1,
   (C6_stratified_split [0, 0, 0, 0, 0, 1, 1, 1, 1, 1]).2.2.2.2 0 (by decide) (by decide)⟩

end ISAR
